import Mathlib

/-!
Verification of the AST node model and cycle-safe graph serializer of
`src/core.js` (CringeMinusMinus).

Shallow embedding conventions:

* Node identity (JavaScript reference identity) is modelled by a natural
  number id; the object graph is a finite association list `Heap` from ids
  to node payloads.  `Object.assign(this, {a, b})` preserves insertion
  order, so a composite node is an ordered list of named fields.
* A `Token` stores its `category` and the `contents` of its Ohm source
  node (the `lexeme` getter), plus the optional `value` property that
  later phases may attach (`tag` recurses into `node?.value`).
* Primitives (numbers, strings, booleans, null, undefined) are never
  tagged and never recursed into (`typeof node !== "object"` and the
  `node === null` guard); `undefined` arises from `node?.value` when no
  `value` property is present and is modelled by `Option`.
* Arrays appear in the data model only as field values (sequence-valued
  fields) and as such are iterated (`child.forEach(tag)`) but never
  tagged and never back-referenced, so they are embedded structurally as
  Lean lists; the well-formedness predicate `wfHeap` restricts graphs to
  this shape (no array nested directly inside an array, token values are
  resolved records or primitives), matching the data model of the spec.
* `tag` in the source recurses without any structural bound (cycles are
  cut only by the visited check), so the traversal is embedded with an
  explicit fuel parameter that decreases at every recursion / iteration
  step; `none` models non-termination within the given fuel.  Termination
  of the source algorithm is the theorem that the explicit fuel bound
  `fuelBound` always suffices.
-/

/-- Primitive JavaScript values occurring in the node graph. -/
inductive Prim where
  | num (n : Int)
  | str (s : String)
  | bool (b : Bool)
  | null
  | undef
deriving DecidableEq, Repr

/-- A field value: a primitive, a reference to a heap object (composite
node, record, or token), or an array of values. -/
inductive Val where
  | prim (p : Prim)
  | ref (id : Nat)
  | arr (elems : List Val)

/-- A heap object: either a `Token` (category, source contents, optional
attached `value`) or any other object (`class` instance) with its
constructor name and its own enumerable properties in insertion order. -/
inductive HNode where
  | token (category : String) (sourceContents : String) (value : Option Val)
  | obj (ctorName : String) (fields : List (String × Val))

/-- The object graph: an association list from identity to payload. -/
abbrev Heap := List (Nat × HNode)

/-- The `tags` map of the serializer: insertion-ordered association list
from node identity to its integer tag. -/
abbrev St := List (Nat × Nat)

/-- Lookup of a node by identity. -/
def hget : Heap → Nat → Option HNode
  | [], _ => none
  | p :: t, id => if p.1 == id then some p.2 else hget t id

/-- The `tags.has(node)` test. -/
def hasTag (st : St) (id : Nat) : Bool :=
  st.any (fun p => p.1 == id)

/-- The `tags.get(node)` lookup. -/
def tagLookup : St → Nat → Option Nat
  | [], _ => none
  | p :: t, id => if p.1 == id then some p.2 else tagLookup t id

/-- Is the id bound to a non-token object in the heap? -/
def isObjAt (H : Heap) (id : Nat) : Bool :=
  match hget H id with
  | some (.obj _ _) => true
  | _ => false

/-- Is the id bound to a `Token` in the heap? -/
def isTokAt (H : Heap) (id : Nat) : Bool :=
  match hget H id with
  | some (.token _ _ _) => true
  | _ => false

/-- Is the id bound at all in the heap? -/
def keyMem (H : Heap) (id : Nat) : Bool :=
  (hget H id).isSome

/-- One task of the tagging traversal: visiting a single value
(`tag(node)`), iterating the field values of a freshly tagged node
(`for (const child of Object.values(node))`), or iterating the elements
of a sequence-valued field (`child.forEach(tag)`). -/
inductive TagJob where
  | val (v : Val)
  | fields (cs : List Val)
  | elems (es : List Val)

/-- Phase 1 of the serializer: the recursive `tag` function.  Fuel
decreases at every step; `none` means the fuel was exhausted.  A fresh
node is assigned tag `tags.size + 1` and its children are then visited in
declared field order; arrays at field positions are iterated element by
element; tokens are not tagged, only their optional `value` is visited;
already tagged identities and non-objects stop the recursion. -/
def tag (H : Heap) : Nat → St → TagJob → Option St
  | 0, _, _ => none
  | f + 1, st, j =>
    match j with
    | .val v =>
      match v with
      | .prim _ => some st
      | .arr _ => some st
      | .ref id =>
        if hasTag st id then some st
        else
          match hget H id with
          | none => some st
          | some (.token _ _ value) =>
            match value with
            | none => some st
            | some w => tag H f st (.val w)
          | some (.obj _ fields) =>
            tag H f (st ++ [(id, st.length + 1)]) (.fields (fields.map Prod.snd))
    | .fields [] => some st
    | .fields (c :: cs) =>
      match c with
      | .arr l =>
        match tag H f st (.elems l) with
        | none => none
        | some st1 => tag H f st1 (.fields cs)
      | _ =>
        match tag H f st (.val c) with
        | none => none
        | some st1 => tag H f st1 (.fields cs)
    | .elems [] => some st
    | .elems (e :: es) =>
      match tag H f st (.val e) with
      | none => none
      | some st1 => tag H f st1 (.elems es)

/-- Length of an array value, 0 otherwise; used for the fuel bound. -/
def arrLen : Val → Nat
  | .arr l => l.length
  | _ => 0

/-- Fuel weight of a list of field values. -/
def fieldsWeight (cs : List Val) : Nat :=
  (cs.map (fun c => 1 + arrLen c)).sum

/-- Fuel weight of a node. -/
def nodeWeight : HNode → Nat
  | .token _ _ _ => 0
  | .obj _ fields => fieldsWeight (fields.map Prod.snd)

/-- Maximal node weight of the heap. -/
def maxWeight : Heap → Nat
  | [] => 0
  | p :: t => max (nodeWeight p.2) (maxWeight t)

/-- Fuel consumed per newly tagged node, at most. -/
def stepBound (H : Heap) : Nat := maxWeight H + 2

/-- A fuel amount sufficient for the whole traversal (proved below). -/
def fuelBound (H : Heap) : Nat := stepBound H * H.length + 2

/-- Discriminator for non-token objects. -/
def isObjN : HNode → Bool
  | .obj _ _ => true
  | _ => false

/-- Identities of the non-token objects of the heap. -/
def objKeys (H : Heap) : List Nat :=
  (H.filter (fun p => isObjN p.2)).map Prod.fst

/-- Number of non-token objects not yet tagged; the decreasing measure of
the traversal. -/
def untagged (H : Heap) (st : St) : Nat :=
  ((objKeys H).filter (fun id => !hasTag st id)).length

/-- Fuel needed by one job of the traversal, in terms of the number of
still-untagged objects. -/
def jobNeed (H : Heap) (st : St) : TagJob → Nat
  | .val _ => stepBound H * untagged H st + 2
  | .fields cs => stepBound H * untagged H st + fieldsWeight cs + 2
  | .elems es => stepBound H * untagged H st + es.length + 2

/-- The tag table only ever grows by appending entries. -/
def Grows (a b : St) : Prop := ∃ t, b = a ++ t

/-- The job performed for one field value: arrays are iterated, anything
else is visited directly. -/
def headJob : Val → TagJob
  | .arr l => .elems l
  | v => .val v

/-- Is a value anything but an array? -/
def notArr : Val → Bool
  | .arr _ => false
  | _ => true

/-- The `util.inspect` rendering of a primitive value. -/
def inspectPrim : Prim → String
  | .num n => toString n
  | .str s => "\x27" ++ s ++ "\x27"
  | .bool b => if b then "true" else "false"
  | .null => "null"
  | .undef => "undefined"

/-- The `view` function of the renderer on non-array values: a tagged
identity renders as a back-reference, an untagged token renders as
`(category,"lexeme")` (the attached-value rendering is commented out in
the source), anything else falls through to `util.inspect`.  The object
fallback is unreachable once tagging has run. -/
def viewScalar (H : Heap) (st : St) : Val → String
  | .prim p => inspectPrim p
  | .ref id =>
    match tagLookup st id with
    | some t => "#" ++ toString t
    | none =>
      match hget H id with
      | some (.token cat src _) => "(" ++ cat ++ ",\"" ++ src ++ "\")"
      | some (.obj c _) => "<" ++ c ++ ">"
      | none => "undefined"
  | .arr _ => "[nested]"

/-- The `view` function: arrays render as their comma-joined elements in
brackets (template-literal coercion of `e.map(view)`); the nested-array
case of `viewScalar` is unreachable on well-formed graphs, where arrays
occur only at field positions. -/
def view (H : Heap) (st : St) : Val → String
  | .arr l => "[" ++ String.intercalate "," (l.map (viewScalar H st)) ++ "]"
  | v => viewScalar H st v

/-- `String(id).padStart(4, " ")`. -/
def padTag (t : Nat) : String :=
  let s := toString t
  String.mk (List.replicate (4 - s.length) ' ') ++ s

/-- One output line of the renderer for a tagged entry: the padded tag,
the constructor name, and the `k=view(v)` renderings of the node's own
properties in declared order.  Only non-token objects are ever tagged. -/
def lineFor (H : Heap) (st : St) (p : Nat × Nat) : String :=
  match hget H p.1 with
  | some (.obj ctorName fields) =>
    padTag p.2 ++ " | " ++ ctorName ++ " " ++
      String.intercalate " " (fields.map (fun kv => kv.1 ++ "=" ++ view H st kv.2))
  | _ => ""

/-- Stable insertion into a tag-sorted list, implementing the
`sort((a, b) => a[1] - b[1])` on the collected map entries. -/
def insertByTag (p : Nat × Nat) : List (Nat × Nat) → List (Nat × Nat)
  | [] => [p]
  | q :: t => if p.2 < q.2 then p :: q :: t else q :: insertByTag p t

/-- Sorting the collected `tags` entries by ascending tag. -/
def sortByTag : List (Nat × Nat) → List (Nat × Nat)
  | [] => []
  | p :: t => insertByTag p (sortByTag t)

/-- Phase 2 of the serializer: one line per tagged node, in ascending tag
order, joined with newlines. -/
def renderAll (H : Heap) (st : St) : String :=
  String.intercalate "\n" ((sortByTag st).map (lineFor H st))

/-- The whole serializer attached to `Program.prototype`: run `tag(this)`
from the root, then render all collected nodes.  `none` models a
traversal that would not have terminated within `fuelBound`. -/
def serialize (H : Heap) (root : Nat) : Option String :=
  match tag H (fuelBound H) [] (.val (.ref root)) with
  | none => none
  | some st => some (renderAll H st)

/-- The serializer does not write to the graph: the source keeps all its
bookkeeping in the local `tags` map and only reads nodes through
`Object.values` / `Object.entries`, so the heap after a call is the heap
before it.  This pairing makes the frame explicit. -/
def serializeRun (H : Heap) (root : Nat) : Option String × Heap :=
  (serialize H root, H)

/-- Element-level well-formedness: array elements are primitives or
references, never arrays (sequences hold nodes). -/
def elemWF (H : Heap) : Val → Bool
  | .prim _ => true
  | .ref id => keyMem H id
  | .arr _ => false

/-- Field-value well-formedness: references exist, arrays are flat. -/
def valWF (H : Heap) : Val → Bool
  | .prim _ => true
  | .ref id => keyMem H id
  | .arr l => l.all (elemWF H)

/-- Node well-formedness: a token's attached `value` is a resolved record
(reference to a non-token object) or a primitive; fields of composite
nodes hold well-formed values. -/
def nodeWF (H : Heap) : HNode → Bool
  | .token _ _ none => true
  | .token _ _ (some v) =>
    match v with
    | .prim _ => true
    | .ref id => isObjAt H id
    | .arr _ => false
  | .obj _ fields => fields.all (fun kv => valWF H kv.2)

/-- Key uniqueness of the heap (each identity bound once). -/
def keysNodup : Heap → Bool
  | [] => true
  | p :: t => !(t.any (fun q => q.1 == p.1)) && keysNodup t

/-- Well-formed graph: unique identities and well-formed nodes. -/
def wfHeap (H : Heap) : Bool :=
  keysNodup H && H.all (fun p => nodeWF H p.2)

/-- Identities directly referenced by a value (array elements included;
on well-formed graphs arrays are flat, so one level suffices). -/
def valIds : Val → List Nat
  | .prim _ => []
  | .ref id => [id]
  | .arr l =>
    l.filterMap (fun e =>
      match e with
      | .ref id => some id
      | _ => none)

/-- Identities directly referenced by a node: field values for composite
nodes, the attached `value` for tokens. -/
def succIds (H : Heap) (z : Nat) : List Nat :=
  match hget H z with
  | some (.obj _ fields) => ((fields.map Prod.snd).map valIds).flatten
  | some (.token _ _ (some v)) => valIds v
  | _ => []

/-- One step between composite nodes in the graph: a direct field
reference, or a field reference to a token whose attached value refers
onward (tokens are transparent placeholders). -/
def edgeO (H : Heap) (z w : Nat) : Prop :=
  isObjAt H w = true ∧
    (w ∈ succIds H z ∨
      ∃ u, u ∈ succIds H z ∧ isTokAt H u = true ∧ w ∈ succIds H u)

/-- Reachability between composite nodes along `edgeO`. -/
def ReachO (H : Heap) (root w : Nat) : Prop :=
  Relation.ReflTransGen (edgeO H) root w

/-- The ids recorded in the tag table. -/
def ids (st : St) : List Nat := st.map Prod.fst

/-- The tag values are the consecutive integers starting at 1. -/
def upFrom (s : Nat) : Nat → List Nat
  | 0 => []
  | n + 1 => s :: upFrom (s + 1) n

/-- Consecutive-tag invariant of the tag table. -/
def Consec (st : St) : Prop :=
  st.map Prod.snd = upFrom 1 st.length

/-- Flat-array discipline of a job: the lists handed to the iteration
jobs contain no nested arrays (guaranteed by `wfHeap` for every job the
traversal spawns). -/
def jobOK : TagJob → Bool
  | .val _ => true
  | .fields cs =>
    cs.all (fun c =>
      match c with
      | .arr l => l.all notArr
      | _ => true)
  | .elems es => es.all notArr

/-- The identities referenced directly by a job. -/
def jobRefs : TagJob → List Nat
  | .val (.ref r) => [r]
  | .val _ => []
  | .fields cs => (cs.map valIds).flatten
  | .elems es => (es.map valIds).flatten

/-- After a traversal run, a referenced identity is fully processed: a
referenced object is tagged, and a referenced token has all objects
behind its attached value tagged. -/
def refProp (H : Heap) (st : St) (r : Nat) : Prop :=
  (isObjAt H r = true → r ∈ ids st) ∧
  (isTokAt H r = true →
    ∀ w, w ∈ succIds H r → isObjAt H w = true → w ∈ ids st)

/-- A referenced identity only leads to nodes reachable from the root:
a referenced object is reachable, and objects behind a referenced
token's attached value are reachable. -/
def reachProp (H : Heap) (root r : Nat) : Prop :=
  (isObjAt H r = true → ReachO H root r) ∧
  (isTokAt H r = true →
    ∀ w, w ∈ succIds H r → isObjAt H w = true → ReachO H root w)

/-- The node/type data model, `Type` class: basic types carry only their
display string (`typename`). -/
structure Typ where
  typename : String
deriving DecidableEq, Repr

/-- `Type.BOOLEAN`. -/
def Typ.BOOLEAN : Typ := ⟨"boolin"⟩

/-- `Type.INT`. -/
def Typ.INT : Typ := ⟨"pog"⟩

/-- `Type.DOUBLE`. -/
def Typ.DOUBLE : Typ := ⟨"dublin"⟩

/-- `Type.STRING`. -/
def Typ.STRING : Typ := ⟨"manyCars"⟩

/-- `Type.VOID`. -/
def Typ.VOID : Typ := ⟨"nada"⟩

/-- An arbitrary JavaScript argument for the `ArrayType` constructor:
either an instance of `Type` or any other value. -/
inductive TypeArg where
  | isType (t : Typ)
  | notType (v : Val)

/-- A raised JavaScript exception, carrying its message. -/
structure JsError where
  message : String
deriving DecidableEq, Repr

/-- The `ReferenceError` raised when a derived-class constructor returns
without having called `super`. -/
def superRefError : JsError :=
  ⟨"Must call super constructor in derived class before accessing " ++
    "\x27this\x27 or returning from derived constructor"⟩

/-- The `ArrayType` constructor: on a `Type` argument it calls
`super` with the derived display name; on any other argument the guard
skips the `super` call and the constructor body completes without
initializing `this`, which raises a `ReferenceError` at construction
time (JavaScript derived-class semantics). -/
def ArrayTypeMk : TypeArg → Except JsError Typ
  | .isType t => .ok ⟨"[" ++ t.typename ++ "]"⟩
  | .notType _ => .error superRefError

/-- The `FunctionType` constructor: `super` receives the display name
derived from the parameter types and the return type. -/
def FunctionTypeMk (paramTypes : List Typ) (returnType : Typ) : Typ :=
  ⟨"(" ++ String.intercalate "," (paramTypes.map Typ.typename) ++ ")->" ++
    returnType.typename⟩

/-- The `error(message, token)` helper: it unconditionally throws
`new Error(message)` (the token-based enrichment is commented out in the
source). -/
def error (message : String) (token : Option HNode) : Except JsError Unit :=
  .error ⟨message⟩

/-- A two-node reference cycle: node 0 (`A`) has a field referring to
node 1 (`B`) whose field refers back to node 0. -/
def cycHeap : Heap :=
  [(0, .obj "Assignment" [("target", .ref 1)]),
   (1, .obj "Assignment" [("source", .ref 0)])]

/-- A root whose two distinct fields (`type` and `variable`) hold the very
same node instance 1. -/
def shareHeap : Heap :=
  [(0, .obj "VariableDeclaration"
        [("type", .ref 1), ("variable", .ref 1), ("initializer", .prim .null)]),
   (1, .obj "Type" [("typename", .prim (.str "pog"))])]

/-- A small program graph with a sequence-valued field. -/
def chainHeap : Heap :=
  [(0, .obj "Program" [("statements", .arr [.ref 1])]),
   (1, .obj "BreakStatement" [])]

/-- A small graph used to exercise heap extension. -/
def extHeap : Heap :=
  [(0, .obj "Program" [("statements", .arr [])])]

/-- Extra unreachable bindings appended to the heap. -/
def extraHeap : Heap :=
  [(7, .obj "Else" [("block", .prim .null)])]

/-- A print statement whose argument is a leaf token with no attached
resolved value. -/
def tokHeap : Heap :=
  [(0, .obj "PrintStatement" [("argument", .ref 1)]),
   (1, .token "number" "5" none)]

/-- The end-to-end example of the spec:
`Program([VariableDeclaration(Type.INT, Variable("x"), numberToken)])`
with `numberToken` a leaf token of category `number` and raw text `5`. -/
def vdHeap : Heap :=
  [(1, .obj "Program" [("statements", .arr [.ref 2])]),
   (2, .obj "VariableDeclaration"
        [("type", .ref 3), ("variable", .ref 4), ("initializer", .ref 5)]),
   (3, .obj "Type" [("typename", .prim (.str "pog"))]),
   (4, .obj "Variable" [("name", .prim (.str "x"))]),
   (5, .token "number" "5" none)]

theorem grows_refl (a : St) : Grows a a := ⟨[], by simp⟩

theorem grows_trans {a b c : St} (h1 : Grows a b) (h2 : Grows b c) : Grows a c := by
  obtain ⟨t1, rfl⟩ := h1
  obtain ⟨t2, rfl⟩ := h2
  exact ⟨t1 ++ t2, by simp⟩

theorem grows_append (a t : St) : Grows a (a ++ t) := ⟨t, rfl⟩

theorem mem_ids_of_grows {a b : St} (h : Grows a b) {x : Nat} (hx : x ∈ ids a) :
    x ∈ ids b := by
  obtain ⟨t, rfl⟩ := h
  simp only [ids, List.map_append, List.mem_append]
  exact Or.inl hx

theorem hasTag_iff {st : St} {id : Nat} : hasTag st id = true ↔ id ∈ ids st := by
  simp [hasTag, ids, List.any_eq_true, List.mem_map]

theorem hasTag_false_iff {st : St} {id : Nat} : hasTag st id = false ↔ id ∉ ids st := by
  rw [← hasTag_iff]
  simp

theorem hasTag_of_grows {a b : St} (h : Grows a b) {id : Nat}
    (ht : hasTag a id = true) : hasTag b id = true := by
  rw [hasTag_iff] at ht ⊢
  exact mem_ids_of_grows h ht

theorem hasTag_append_single {st : St} {id k x : Nat} :
    hasTag (st ++ [(id, k)]) x = (hasTag st x || (id == x)) := by
  simp [hasTag, List.any_append]

theorem hget_mem : ∀ {H : Heap} {id : Nat} {n : HNode}, hget H id = some n → (id, n) ∈ H := by
  intro H
  induction H with
  | nil => intro id n h; simp [hget] at h
  | cons p t ih =>
    intro id n h
    obtain ⟨k, m⟩ := p
    rw [hget] at h
    split at h
    · next heq =>
      cases h
      have hk : k = id := by simpa using heq
      subst hk
      exact List.mem_cons_self _ _
    · exact List.mem_cons_of_mem _ (ih h)

theorem keyMem_iff {H : Heap} {id : Nat} :
    keyMem H id = true ↔ ∃ n, hget H id = some n := by
  simp [keyMem, Option.isSome_iff_exists]

theorem isObjAt_iff {H : Heap} {id : Nat} :
    isObjAt H id = true ↔ ∃ c fs, hget H id = some (.obj c fs) := by
  unfold isObjAt
  cases h : hget H id with
  | none => simp
  | some n => cases n <;> simp

theorem isTokAt_iff {H : Heap} {id : Nat} :
    isTokAt H id = true ↔ ∃ c s v, hget H id = some (.token c s v) := by
  unfold isTokAt
  cases h : hget H id with
  | none => simp
  | some n => cases n <;> simp

theorem not_tok_of_obj {H : Heap} {id : Nat} (h : isObjAt H id = true) :
    isTokAt H id = false := by
  obtain ⟨c, fs, hg⟩ := isObjAt_iff.mp h
  simp [isTokAt, hg]

theorem keyMem_of_obj {H : Heap} {id : Nat} (h : isObjAt H id = true) :
    keyMem H id = true := by
  obtain ⟨c, fs, hg⟩ := isObjAt_iff.mp h
  simp [keyMem, hg]

theorem tagLookup_eq_none_iff : ∀ {st : St} {id : Nat},
    tagLookup st id = none ↔ id ∉ ids st := by
  intro st
  induction st with
  | nil => simp [tagLookup, ids]
  | cons p t ih =>
    intro id
    rw [tagLookup]
    split
    · next heq =>
      have : p.1 = id := by simpa using heq
      simp [ids, this]
    · next heq =>
      have : ¬ p.1 = id := by simpa using heq
      simp [ids, ih, this]
      tauto

theorem tagLookup_isSome_of_mem {st : St} {id : Nat} (h : id ∈ ids st) :
    ∃ t, tagLookup st id = some t := by
  cases ht : tagLookup st id with
  | none => exact absurd (tagLookup_eq_none_iff.mp ht) (by simpa using h)
  | some t => exact ⟨t, rfl⟩

theorem mem_objKeys_of_isObjAt {H : Heap} {id : Nat} (h : isObjAt H id = true) :
    id ∈ objKeys H := by
  obtain ⟨c, fs, hg⟩ := isObjAt_iff.mp h
  have hm : (id, HNode.obj c fs) ∈ H := hget_mem hg
  unfold objKeys
  exact List.mem_map.mpr ⟨(id, .obj c fs), List.mem_filter.mpr ⟨hm, by simp [isObjN]⟩, rfl⟩

theorem keysNodup_nodup : ∀ {H : Heap}, keysNodup H = true → (H.map Prod.fst).Nodup := by
  intro H
  induction H with
  | nil => intro _; simp
  | cons p t ih =>
    intro h
    rw [keysNodup, Bool.and_eq_true] at h
    obtain ⟨h1, h2⟩ := h
    rw [List.map_cons, List.nodup_cons]
    refine ⟨?_, ih h2⟩
    intro hmem
    obtain ⟨q, hq, hfst⟩ := List.mem_map.mp hmem
    have : t.any (fun q => q.1 == p.1) = true :=
      List.any_eq_true.mpr ⟨q, hq, by simp [hfst]⟩
    simp [this] at h1

theorem objKeys_nodup {H : Heap} (h : keysNodup H = true) : (objKeys H).Nodup := by
  have h1 : (H.filter (fun p => isObjN p.2)).map Prod.fst |>.Sublist (H.map Prod.fst) :=
    (List.filter_sublist H).map Prod.fst
  exact (keysNodup_nodup h).sublist h1

theorem filter_len_le {α : Type} (p q : α → Bool) :
    ∀ (l : List α), (∀ x ∈ l, p x = true → q x = true) →
      (l.filter p).length ≤ (l.filter q).length := by
  intro l
  induction l with
  | nil => intro _; simp
  | cons a t ih =>
    intro h
    have ht : ∀ x ∈ t, p x = true → q x = true := fun x hx => h x (List.mem_cons_of_mem _ hx)
    cases hpa : p a with
    | true =>
      have hqa : q a = true := h a (List.mem_cons_self _ _) hpa
      simp only [List.filter_cons, hpa, hqa, if_true, List.length_cons]
      exact Nat.succ_le_succ (ih ht)
    | false =>
      simp only [List.filter_cons, hpa]
      cases hqa : q a with
      | true =>
        simp only [List.length_cons]
        exact Nat.le_succ_of_le (ih ht)
      | false => exact ih ht

theorem untagged_le_of_grows {H : Heap} {a b : St} (h : Grows a b) :
    untagged H b ≤ untagged H a := by
  apply filter_len_le
  intro x _ hx
  cases ha : hasTag a x with
  | false => simp
  | true => rw [hasTag_of_grows h ha] at hx; cases hx

theorem untagged_insert_aux (st : St) (id k : Nat) :
    ∀ (l : List Nat), l.Nodup → id ∈ l → hasTag st id = false →
      (l.filter (fun x => !hasTag st x)).length =
        (l.filter (fun x => !hasTag (st ++ [(id, k)]) x)).length + 1 := by
  intro l
  induction l with
  | nil => intro _ hmem; cases hmem
  | cons a t ih =>
    intro hnd hmem hfresh
    rw [List.nodup_cons] at hnd
    obtain ⟨hat, hndt⟩ := hnd
    by_cases hai : a = id
    · subst hai
      have h1 : (!hasTag st a) = true := by simp [hfresh]
      have h2 : (!hasTag (st ++ [(a, k)]) a) = false := by
        simp [hasTag_append_single]
      have h3 : t.filter (fun x => !hasTag (st ++ [(a, k)]) x) =
          t.filter (fun x => !hasTag st x) := by
        apply List.filter_congr
        intro x hx
        have hax : (a == x) = false := by
          apply beq_eq_false_iff_ne.mpr
          rintro rfl
          exact hat hx
        simp [hasTag_append_single, hax]
      rw [List.filter_cons, List.filter_cons, h1, h2, h3]
      simp
    · have hmt : id ∈ t := by
        rcases List.mem_cons.mp hmem with h | h
        · exact absurd h.symm hai
        · exact h
      have hne : (id == a) = false := beq_eq_false_iff_ne.mpr fun hc => hai hc.symm
      have hsame : (!hasTag (st ++ [(id, k)]) a) = (!hasTag st a) := by
        simp [hasTag_append_single, hne]
      rw [List.filter_cons, List.filter_cons, hsame]
      cases hpa : (!hasTag st a) with
      | true =>
        simp only [if_true, List.length_cons]
        rw [ih hndt hmt hfresh]
      | false =>
        simp only [Bool.false_eq_true, if_false]
        exact ih hndt hmt hfresh

theorem untagged_insert {H : Heap} {st : St} {id : Nat} (k : Nat)
    (hnd : keysNodup H = true) (hobj : isObjAt H id = true)
    (hfresh : hasTag st id = false) :
    untagged H st = untagged H (st ++ [(id, k)]) + 1 :=
  untagged_insert_aux st id k (objKeys H) (objKeys_nodup hnd)
    (mem_objKeys_of_isObjAt hobj) hfresh

theorem nodeWeight_le_max : ∀ {H : Heap} {id : Nat} {n : HNode},
    (id, n) ∈ H → nodeWeight n ≤ maxWeight H := by
  intro H
  induction H with
  | nil => intro id n h; cases h
  | cons p t ih =>
    intro id n h
    rcases List.mem_cons.mp h with rfl | hmt
    · exact Nat.le_max_left _ _
    · exact Nat.le_trans (ih hmt) (Nat.le_max_right _ _)

theorem fieldsWeight_le_max {H : Heap} {id : Nat} {c : String}
    {fs : List (String × Val)} (h : hget H id = some (.obj c fs)) :
    fieldsWeight (fs.map Prod.snd) ≤ maxWeight H :=
  nodeWeight_le_max (hget_mem h)

theorem maxWeight_append (H E : Heap) :
    maxWeight (H ++ E) = max (maxWeight H) (maxWeight E) := by
  induction H with
  | nil => simp [maxWeight]
  | cons p t ih => simp [maxWeight, ih, Nat.max_assoc]

theorem fuelBound_le_append (H E : Heap) : fuelBound H ≤ fuelBound (H ++ E) := by
  unfold fuelBound stepBound
  have h1 : maxWeight H ≤ maxWeight (H ++ E) := by
    rw [maxWeight_append]; exact Nat.le_max_left _ _
  have h2 : H.length ≤ (H ++ E).length := by simp
  exact Nat.add_le_add_right
    (Nat.mul_le_mul (Nat.add_le_add_right h1 2) h2) 2

theorem upFrom_snoc : ∀ (n s : Nat), upFrom s (n + 1) = upFrom s n ++ [s + n] := by
  intro n
  induction n with
  | zero => intro s; simp [upFrom]
  | succ n ih =>
    intro s
    rw [upFrom, ih (s + 1), upFrom]
    simp [Nat.add_assoc, Nat.add_comm 1 n]

theorem mem_upFrom : ∀ {n s x : Nat}, x ∈ upFrom s n → s ≤ x := by
  intro n
  induction n with
  | zero => intro s x h; cases h
  | succ n ih =>
    intro s x h
    rw [upFrom] at h
    rcases List.mem_cons.mp h with rfl | hmt
    · exact Nat.le_refl x
    · exact Nat.le_trans (Nat.le_succ s) (ih hmt)

theorem consec_nil : Consec [] := by simp [Consec, upFrom]

theorem consec_insert {st : St} (h : Consec st) (id : Nat) :
    Consec (st ++ [(id, st.length + 1)]) := by
  unfold Consec at h ⊢
  rw [List.map_append, h]
  simp only [List.length_append, List.length_singleton, List.map_cons, List.map_nil]
  rw [upFrom_snoc st.length 1]
  simp [Nat.add_comm]

theorem insertByTag_head {p : Nat × Nat} : ∀ {t : List (Nat × Nat)},
    (∀ q ∈ t, p.2 < q.2) → insertByTag p t = p :: t := by
  intro t h
  cases t with
  | nil => rfl
  | cons q t' => simp [insertByTag, h q (List.mem_cons_self _ _)]

theorem sortByTag_upFrom : ∀ (st : St) (s : Nat),
    st.map Prod.snd = upFrom (s + 1) st.length → sortByTag st = st := by
  intro st
  induction st with
  | nil => intro s _; rfl
  | cons p t ih =>
    intro s h
    simp only [List.map_cons, List.length_cons, upFrom] at h
    obtain ⟨hp, ht⟩ := List.cons_eq_cons.mp h
    rw [sortByTag, ih (s + 1) ht]
    apply insertByTag_head
    intro q hq
    have : q.2 ∈ upFrom (s + 2) t.length := by
      rw [← ht]
      exact List.mem_map.mpr ⟨q, hq, rfl⟩
    have h2 := mem_upFrom this
    omega

theorem sortByTag_eq_self {st : St} (h : Consec st) : sortByTag st = st := by
  apply sortByTag_upFrom st 0
  simpa [Consec] using h

theorem tag_zero (H : Heap) (st : St) (j : TagJob) : tag H 0 st j = none := rfl

theorem tag_val_prim (H : Heap) (f : Nat) (st : St) (p : Prim) :
    tag H (f + 1) st (.val (.prim p)) = some st := rfl

theorem tag_val_arr (H : Heap) (f : Nat) (st : St) (l : List Val) :
    tag H (f + 1) st (.val (.arr l)) = some st := rfl

theorem tag_ref_tagged {st : St} {id : Nat} (H : Heap) (f : Nat)
    (h : hasTag st id = true) : tag H (f + 1) st (.val (.ref id)) = some st := by
  simp [tag, h]

theorem tag_ref_missing {H : Heap} {st : St} {id : Nat} (f : Nat)
    (h1 : hasTag st id = false) (h2 : hget H id = none) :
    tag H (f + 1) st (.val (.ref id)) = some st := by
  simp [tag, h1, h2]

theorem tag_ref_tok_none {H : Heap} {st : St} {id : Nat} {c s : String} (f : Nat)
    (h1 : hasTag st id = false) (h2 : hget H id = some (.token c s none)) :
    tag H (f + 1) st (.val (.ref id)) = some st := by
  simp [tag, h1, h2]

theorem tag_ref_tok_some {H : Heap} {st : St} {id : Nat} {c s : String} {w : Val} (f : Nat)
    (h1 : hasTag st id = false) (h2 : hget H id = some (.token c s (some w))) :
    tag H (f + 1) st (.val (.ref id)) = tag H f st (.val w) := by
  simp [tag, h1, h2]

theorem tag_ref_obj {H : Heap} {st : St} {id : Nat} {c : String}
    {fs : List (String × Val)} (f : Nat)
    (h1 : hasTag st id = false) (h2 : hget H id = some (.obj c fs)) :
    tag H (f + 1) st (.val (.ref id)) =
      tag H f (st ++ [(id, st.length + 1)]) (.fields (fs.map Prod.snd)) := by
  simp [tag, h1, h2]

theorem tag_fields_nil (H : Heap) (f : Nat) (st : St) :
    tag H (f + 1) st (.fields []) = some st := rfl

theorem tag_fields_cons (H : Heap) (f : Nat) (st : St) (c : Val) (cs : List Val) :
    tag H (f + 1) st (.fields (c :: cs)) =
      (tag H f st (headJob c)).bind (fun st1 => tag H f st1 (.fields cs)) := by
  cases c with
  | prim p => cases h : tag H f st (.val (.prim p)) <;> simp [tag, headJob, h]
  | ref id => cases h : tag H f st (.val (.ref id)) <;> simp [tag, headJob, h]
  | arr l => cases h : tag H f st (.elems l) <;> simp [tag, headJob, h]

theorem tag_elems_nil (H : Heap) (f : Nat) (st : St) :
    tag H (f + 1) st (.elems []) = some st := rfl

theorem tag_elems_cons (H : Heap) (f : Nat) (st : St) (e : Val) (es : List Val) :
    tag H (f + 1) st (.elems (e :: es)) =
      (tag H f st (.val e)).bind (fun st1 => tag H f st1 (.elems es)) := by
  cases h : tag H f st (.val e) <;> simp [tag, h]

theorem tag_invariants {H : Heap} : ∀ f st j st', tag H f st j = some st' →
    Grows st st' ∧
    ((ids st).Nodup → (ids st').Nodup) ∧
    (∀ x, x ∈ ids st' → x ∈ ids st ∨ isObjAt H x = true) ∧
    (Consec st → Consec st') := by
  intro f
  induction f using Nat.strong_induction_on with
  | _ f ih =>
    cases f with
    | zero => intro st j st' h; rw [tag_zero] at h; cases h
    | succ f =>
      have ihf := ih f (Nat.lt_succ_self f)
      intro st j st' h
      have triv : Grows st st ∧ ((ids st).Nodup → (ids st).Nodup) ∧
          (∀ x, x ∈ ids st → x ∈ ids st ∨ isObjAt H x = true) ∧
          (Consec st → Consec st) :=
        ⟨grows_refl st, id, fun x hx => Or.inl hx, id⟩
      cases j with
      | val v =>
        cases v with
        | prim p => rw [tag_val_prim] at h; cases h; exact triv
        | arr l => rw [tag_val_arr] at h; cases h; exact triv
        | ref id =>
          cases hht : hasTag st id with
          | true => rw [tag_ref_tagged H f hht] at h; cases h; exact triv
          | false =>
            cases hhg : hget H id with
            | none => rw [tag_ref_missing f hht hhg] at h; cases h; exact triv
            | some n =>
              cases n with
              | token c s value =>
                cases value with
                | none => rw [tag_ref_tok_none f hht hhg] at h; cases h; exact triv
                | some w =>
                  rw [tag_ref_tok_some f hht hhg] at h
                  exact ihf _ _ _ h
              | obj c fs =>
                rw [tag_ref_obj f hht hhg] at h
                obtain ⟨g, nd, oo, cc⟩ := ihf _ _ _ h
                have hids : ids (st ++ [(id, st.length + 1)]) = ids st ++ [id] := by
                  simp [ids]
                refine ⟨grows_trans (grows_append st _) g, ?_, ?_, ?_⟩
                · intro hnd
                  apply nd
                  rw [hids, List.nodup_append]
                  refine ⟨hnd, List.nodup_singleton id, ?_⟩
                  intro a ha hb
                  rw [List.mem_singleton] at hb
                  subst hb
                  exact hasTag_false_iff.mp hht ha
                · intro x hx
                  rcases oo x hx with hx1 | hx2
                  · rw [hids, List.mem_append, List.mem_singleton] at hx1
                    rcases hx1 with hx1 | rfl
                    · exact Or.inl hx1
                    · exact Or.inr (isObjAt_iff.mpr ⟨c, fs, hhg⟩)
                  · exact Or.inr hx2
                · intro hc
                  exact cc (consec_insert hc id)
      | fields cs =>
        cases cs with
        | nil => rw [tag_fields_nil] at h; cases h; exact triv
        | cons c cs =>
          rw [tag_fields_cons] at h
          obtain ⟨st1, h1, h2⟩ := Option.bind_eq_some.mp h
          obtain ⟨g1, nd1, oo1, cc1⟩ := ihf _ _ _ h1
          obtain ⟨g2, nd2, oo2, cc2⟩ := ihf _ _ _ h2
          refine ⟨grows_trans g1 g2, fun hnd => nd2 (nd1 hnd), ?_, fun hc => cc2 (cc1 hc)⟩
          intro x hx
          rcases oo2 x hx with hx1 | hx2
          · exact oo1 x hx1
          · exact Or.inr hx2
      | elems es =>
        cases es with
        | nil => rw [tag_elems_nil] at h; cases h; exact triv
        | cons e es =>
          rw [tag_elems_cons] at h
          obtain ⟨st1, h1, h2⟩ := Option.bind_eq_some.mp h
          obtain ⟨g1, nd1, oo1, cc1⟩ := ihf _ _ _ h1
          obtain ⟨g2, nd2, oo2, cc2⟩ := ihf _ _ _ h2
          refine ⟨grows_trans g1 g2, fun hnd => nd2 (nd1 hnd), ?_, fun hc => cc2 (cc1 hc)⟩
          intro x hx
          rcases oo2 x hx with hx1 | hx2
          · exact oo1 x hx1
          · exact Or.inr hx2

theorem tag_grows {H : Heap} {f : Nat} {st : St} {j : TagJob} {st' : St}
    (h : tag H f st j = some st') : Grows st st' :=
  (tag_invariants f st j st' h).1

theorem tag_nodup {H : Heap} {f : Nat} {st : St} {j : TagJob} {st' : St}
    (h : tag H f st j = some st') (hnd : (ids st).Nodup) : (ids st').Nodup :=
  (tag_invariants f st j st' h).2.1 hnd

theorem tag_objOnly {H : Heap} {f : Nat} {st : St} {j : TagJob} {st' : St}
    (h : tag H f st j = some st') :
    ∀ x, x ∈ ids st' → x ∈ ids st ∨ isObjAt H x = true :=
  (tag_invariants f st j st' h).2.2.1

theorem tag_consec {H : Heap} {f : Nat} {st : St} {j : TagJob} {st' : St}
    (h : tag H f st j = some st') (hc : Consec st) : Consec st' :=
  (tag_invariants f st j st' h).2.2.2 hc

theorem tag_fuel_mono {H : Heap} : ∀ f g st j st', f ≤ g →
    tag H f st j = some st' → tag H g st j = some st' := by
  intro f
  induction f using Nat.strong_induction_on with
  | _ f ih =>
    cases f with
    | zero => intro g st j st' _ h; rw [tag_zero] at h; cases h
    | succ f =>
      intro g st j st' hle h
      cases g with
      | zero => exact absurd hle (by omega)
      | succ g =>
        have hfg : f ≤ g := by omega
        have ihf : ∀ st j st', tag H f st j = some st' → tag H g st j = some st' :=
          fun st j st' => ih f (Nat.lt_succ_self f) g st j st' hfg
        cases j with
        | val v =>
          cases v with
          | prim p => rw [tag_val_prim] at h; rw [tag_val_prim]; exact h
          | arr l => rw [tag_val_arr] at h; rw [tag_val_arr]; exact h
          | ref id =>
            cases hht : hasTag st id with
            | true =>
              rw [tag_ref_tagged H f hht] at h
              rw [tag_ref_tagged H g hht]
              exact h
            | false =>
              cases hhg : hget H id with
              | none =>
                rw [tag_ref_missing f hht hhg] at h
                rw [tag_ref_missing g hht hhg]
                exact h
              | some n =>
                cases n with
                | token c s value =>
                  cases value with
                  | none =>
                    rw [tag_ref_tok_none f hht hhg] at h
                    rw [tag_ref_tok_none g hht hhg]
                    exact h
                  | some w =>
                    rw [tag_ref_tok_some f hht hhg] at h
                    rw [tag_ref_tok_some g hht hhg]
                    exact ihf _ _ _ h
                | obj c fs =>
                  rw [tag_ref_obj f hht hhg] at h
                  rw [tag_ref_obj g hht hhg]
                  exact ihf _ _ _ h
        | fields cs =>
          cases cs with
          | nil => rw [tag_fields_nil] at h; rw [tag_fields_nil]; exact h
          | cons c cs =>
            rw [tag_fields_cons] at h
            rw [tag_fields_cons]
            obtain ⟨st1, h1, h2⟩ := Option.bind_eq_some.mp h
            rw [ihf _ _ _ h1]
            simpa using ihf _ _ _ h2
        | elems es =>
          cases es with
          | nil => rw [tag_elems_nil] at h; rw [tag_elems_nil]; exact h
          | cons e es =>
            rw [tag_elems_cons] at h
            rw [tag_elems_cons]
            obtain ⟨st1, h1, h2⟩ := Option.bind_eq_some.mp h
            rw [ihf _ _ _ h1]
            simpa using ihf _ _ _ h2

theorem wf_keysNodup {H : Heap} (hwf : wfHeap H = true) : keysNodup H = true := by
  rw [wfHeap, Bool.and_eq_true] at hwf
  exact hwf.1

theorem wf_node {H : Heap} (hwf : wfHeap H = true) {id : Nat} {n : HNode}
    (h : hget H id = some n) : nodeWF H n = true := by
  rw [wfHeap, Bool.and_eq_true] at hwf
  have hall := hwf.2
  rw [List.all_eq_true] at hall
  exact hall _ (hget_mem h)

theorem token_value_wf {H : Heap} (hwf : wfHeap H = true) {id : Nat} {c s : String}
    {w : Val} (h : hget H id = some (.token c s (some w))) :
    (∃ p, w = .prim p) ∨ (∃ u, w = .ref u ∧ isObjAt H u = true) := by
  have hn := wf_node hwf h
  cases w with
  | prim p => exact Or.inl ⟨p, rfl⟩
  | ref u =>
    rw [nodeWF] at hn
    exact Or.inr ⟨u, rfl, hn⟩
  | arr l => rw [nodeWF] at hn; cases hn

theorem obj_fields_wf {H : Heap} (hwf : wfHeap H = true) {id : Nat} {c : String}
    {fs : List (String × Val)} (h : hget H id = some (.obj c fs)) :
    ∀ kv ∈ fs, valWF H kv.2 = true := by
  have hn := wf_node hwf h
  rw [nodeWF, List.all_eq_true] at hn
  exact hn

theorem fieldsWeight_cons (c : Val) (cs : List Val) :
    fieldsWeight (c :: cs) = 1 + arrLen c + fieldsWeight cs := by
  simp [fieldsWeight, Nat.add_assoc]

theorem tag_sufficient {H : Heap} (hwf : wfHeap H = true) : ∀ f st j,
    jobNeed H st j ≤ f → ∃ st', tag H f st j = some st' := by
  have hnd := wf_keysNodup hwf
  intro f
  induction f using Nat.strong_induction_on with
  | _ f ih =>
    cases f with
    | zero =>
      intro st j hm
      exfalso
      cases j <;> (simp only [jobNeed] at hm; omega)
    | succ f =>
      intro st j hm
      cases j with
      | val v =>
        cases v with
        | prim p => exact ⟨st, tag_val_prim H f st p⟩
        | arr l => exact ⟨st, tag_val_arr H f st l⟩
        | ref id =>
          simp only [jobNeed] at hm
          cases hht : hasTag st id with
          | true => exact ⟨st, tag_ref_tagged H f hht⟩
          | false =>
            cases hhg : hget H id with
            | none => exact ⟨st, tag_ref_missing f hht hhg⟩
            | some n =>
              cases n with
              | token c s value =>
                cases value with
                | none => exact ⟨st, tag_ref_tok_none f hht hhg⟩
                | some w =>
                  rcases token_value_wf hwf hhg with ⟨p, rfl⟩ | ⟨u, rfl, hu⟩
                  · cases f with
                    | zero => exact absurd hm (by omega)
                    | succ f2 =>
                      exact ⟨st, by
                        rw [tag_ref_tok_some (f2 + 1) hht hhg]
                        exact tag_val_prim H f2 st p⟩
                  · cases f with
                    | zero => exact absurd hm (by omega)
                    | succ f2 =>
                      cases hht2 : hasTag st u with
                      | true =>
                        exact ⟨st, by
                          rw [tag_ref_tok_some (f2 + 1) hht hhg]
                          exact tag_ref_tagged H f2 hht2⟩
                      | false =>
                        obtain ⟨c2, fs2, hg2⟩ := isObjAt_iff.mp hu
                        have hins := untagged_insert (st.length + 1) hnd hu hht2
                        have hwle := fieldsWeight_le_max hg2
                        have hstep : stepBound H = maxWeight H + 2 := rfl
                        have hmul : stepBound H * untagged H st =
                            stepBound H * untagged H (st ++ [(u, st.length + 1)]) +
                              stepBound H := by
                          rw [hins, Nat.mul_succ]
                        obtain ⟨st', h'⟩ := ih f2 (by omega)
                          (st ++ [(u, st.length + 1)]) (.fields (fs2.map Prod.snd))
                          (by simp only [jobNeed]; omega)
                        exact ⟨st', by
                          rw [tag_ref_tok_some (f2 + 1) hht hhg, tag_ref_obj f2 hht2 hg2]
                          exact h'⟩
              | obj c fs =>
                have hu : isObjAt H id = true := isObjAt_iff.mpr ⟨c, fs, hhg⟩
                have hins := untagged_insert (st.length + 1) hnd hu hht
                have hwle := fieldsWeight_le_max hhg
                have hstep : stepBound H = maxWeight H + 2 := rfl
                have hmul : stepBound H * untagged H st =
                    stepBound H * untagged H (st ++ [(id, st.length + 1)]) +
                      stepBound H := by
                  rw [hins, Nat.mul_succ]
                obtain ⟨st', h'⟩ := ih f (Nat.lt_succ_self f)
                  (st ++ [(id, st.length + 1)]) (.fields (fs.map Prod.snd))
                  (by simp only [jobNeed]; omega)
                exact ⟨st', by rw [tag_ref_obj f hht hhg]; exact h'⟩
      | fields cs =>
        simp only [jobNeed] at hm
        cases cs with
        | nil => exact ⟨st, tag_fields_nil H f st⟩
        | cons c cs =>
          rw [fieldsWeight_cons] at hm
          have hjc : jobNeed H st (headJob c) ≤ f := by
            cases c <;> simp only [headJob, jobNeed, arrLen] at hm ⊢ <;> omega
          obtain ⟨st1, h1⟩ := ih f (Nat.lt_succ_self f) st _ hjc
          have hle1 : untagged H st1 ≤ untagged H st :=
            untagged_le_of_grows (tag_grows h1)
          have hmul : stepBound H * untagged H st1 ≤ stepBound H * untagged H st :=
            Nat.mul_le_mul_left _ hle1
          obtain ⟨st2, h2⟩ := ih f (Nat.lt_succ_self f) st1 (.fields cs)
            (by simp only [jobNeed]; omega)
          refine ⟨st2, ?_⟩
          rw [tag_fields_cons, h1]
          simpa using h2
      | elems es =>
        simp only [jobNeed] at hm
        cases es with
        | nil => exact ⟨st, tag_elems_nil H f st⟩
        | cons e es =>
          have hlen : (e :: es).length = es.length + 1 := rfl
          have hje : jobNeed H st (.val e) ≤ f := by simp only [jobNeed]; omega
          obtain ⟨st1, h1⟩ := ih f (Nat.lt_succ_self f) st _ hje
          have hle1 : untagged H st1 ≤ untagged H st :=
            untagged_le_of_grows (tag_grows h1)
          have hmul : stepBound H * untagged H st1 ≤ stepBound H * untagged H st :=
            Nat.mul_le_mul_left _ hle1
          obtain ⟨st2, h2⟩ := ih f (Nat.lt_succ_self f) st1 (.elems es)
            (by simp only [jobNeed]; omega)
          refine ⟨st2, ?_⟩
          rw [tag_elems_cons, h1]
          simpa using h2

theorem valIds_arr_eq : ∀ {l : List Val}, l.all notArr = true →
    (l.map valIds).flatten = valIds (.arr l) := by
  intro l
  induction l with
  | nil => intro _; rfl
  | cons e es ih =>
    intro h
    rw [List.all_cons, Bool.and_eq_true] at h
    obtain ⟨he, hes⟩ := h
    cases e with
    | prim p => simpa [valIds] using ih hes
    | ref u => simpa [valIds] using ih hes
    | arr l2 => rw [notArr] at he; cases he

theorem refProp_mono {H : Heap} {a b : St} (g : Grows a b) {r : Nat}
    (h : refProp H a r) : refProp H b r := by
  obtain ⟨h1, h2⟩ := h
  exact ⟨fun ho => mem_ids_of_grows g (h1 ho),
    fun ht w hw hwo => mem_ids_of_grows g (h2 ht w hw hwo)⟩

theorem jobOK_headJob {c : Val} {cs : List Val}
    (h : jobOK (.fields (c :: cs)) = true) : jobOK (headJob c) = true := by
  rw [jobOK, List.all_cons, Bool.and_eq_true] at h
  cases c with
  | prim p => rfl
  | ref u => rfl
  | arr l => exact h.1

theorem jobOK_fields_tail {c : Val} {cs : List Val}
    (h : jobOK (.fields (c :: cs)) = true) : jobOK (.fields cs) = true := by
  rw [jobOK, List.all_cons, Bool.and_eq_true] at h
  exact h.2

theorem jobOK_elems_tail {e : Val} {es : List Val}
    (h : jobOK (.elems (e :: es)) = true) : jobOK (.elems es) = true := by
  rw [jobOK, List.all_cons, Bool.and_eq_true] at h
  exact h.2

theorem elemWF_notArr {H : Heap} {e : Val} (h : elemWF H e = true) :
    notArr e = true := by
  cases e with
  | prim p => rfl
  | ref u => rfl
  | arr l => rw [elemWF] at h; cases h

theorem jobOK_fields_of_wf {H : Heap} (hwf : wfHeap H = true) {id : Nat}
    {c : String} {fs : List (String × Val)} (h : hget H id = some (.obj c fs)) :
    jobOK (.fields (fs.map Prod.snd)) = true := by
  have hfw := obj_fields_wf hwf h
  rw [jobOK, List.all_eq_true]
  intro v hv
  obtain ⟨kv, hkv, rfl⟩ := List.mem_map.mp hv
  have hw := hfw kv hkv
  cases hkv2 : kv.2 with
  | prim p => rfl
  | ref u => rfl
  | arr l =>
    rw [hkv2, valWF] at hw
    show l.all notArr = true
    rw [List.all_eq_true] at hw ⊢
    exact fun e he => elemWF_notArr (hw e he)

theorem succIds_obj {H : Heap} {id : Nat} {c : String} {fs : List (String × Val)}
    (h : hget H id = some (.obj c fs)) :
    succIds H id = jobRefs (.fields (fs.map Prod.snd)) := by
  rw [succIds, h, jobRefs]

theorem succIds_tok_some {H : Heap} {id : Nat} {c s : String} {w : Val}
    (h : hget H id = some (.token c s (some w))) : succIds H id = valIds w := by
  rw [succIds, h]

theorem succIds_tok_none {H : Heap} {id : Nat} {c s : String}
    (h : hget H id = some (.token c s none)) : succIds H id = [] := by
  rw [succIds, h]

theorem jobRefs_fields_cons (c : Val) (cs : List Val) :
    jobRefs (.fields (c :: cs)) = valIds c ++ jobRefs (.fields cs) := by
  rw [jobRefs, jobRefs, List.map_cons, List.flatten_cons]

theorem jobRefs_elems_cons (e : Val) (es : List Val) :
    jobRefs (.elems (e :: es)) = valIds e ++ jobRefs (.elems es) := by
  rw [jobRefs, jobRefs, List.map_cons, List.flatten_cons]

theorem jobRefs_headJob {c : Val} {cs : List Val}
    (h : jobOK (.fields (c :: cs)) = true) : jobRefs (headJob c) = valIds c := by
  cases c with
  | prim p => rfl
  | ref u => rfl
  | arr l =>
    rw [headJob, jobRefs]
    exact valIds_arr_eq (jobOK_headJob h)

theorem isObjAt_of_hget_obj {H : Heap} {id : Nat} {c : String}
    {fs : List (String × Val)} (h : hget H id = some (.obj c fs)) :
    isObjAt H id = true := isObjAt_iff.mpr ⟨c, fs, h⟩

theorem isObjAt_false_of_tok {H : Heap} {id : Nat} {c s : String} {v : Option Val}
    (h : hget H id = some (.token c s v)) : isObjAt H id = false := by
  rw [isObjAt, h]

theorem isTokAt_of_hget_tok {H : Heap} {id : Nat} {c s : String} {v : Option Val}
    (h : hget H id = some (.token c s v)) : isTokAt H id = true := by
  rw [isTokAt, h]

theorem jobRefs_val_prim (p : Prim) : jobRefs (.val (.prim p)) = [] := rfl

theorem jobRefs_val_arr (l : List Val) : jobRefs (.val (.arr l)) = [] := rfl

theorem jobRefs_val_ref (r : Nat) : jobRefs (.val (.ref r)) = [r] := rfl

theorem tag_refs_done {H : Heap} (hwf : wfHeap H = true) : ∀ f st j st',
    tag H f st j = some st' → jobOK j = true →
    (∀ x, x ∈ ids st → isObjAt H x = true) →
    ∀ r, r ∈ jobRefs j → refProp H st' r := by
  intro f
  induction f using Nat.strong_induction_on with
  | _ f ih =>
    cases f with
    | zero => intro st j st' h; rw [tag_zero] at h; cases h
    | succ f =>
      have ihf := ih f (Nat.lt_succ_self f)
      intro st j st' h hok hobjs
      cases j with
      | val v =>
        cases v with
        | prim p => intro r hr; rw [jobRefs_val_prim] at hr; cases hr
        | arr l => intro r hr; rw [jobRefs_val_arr] at hr; cases hr
        | ref rid =>
          intro r hr
          rw [jobRefs_val_ref, List.mem_singleton] at hr
          subst hr
          cases hht : hasTag st r with
          | true =>
            rw [tag_ref_tagged H f hht] at h
            cases h
            have hmem := hasTag_iff.mp hht
            have hobj := hobjs _ hmem
            refine ⟨fun _ => hmem, fun htok w hw hwo => ?_⟩
            rw [not_tok_of_obj hobj] at htok
            exact Bool.noConfusion htok
          | false =>
            cases hhg : hget H r with
            | none =>
              rw [tag_ref_missing f hht hhg] at h
              cases h
              refine ⟨fun ho => ?_, fun htok w hw hwo => ?_⟩
              · simp [isObjAt, hhg] at ho
              · simp [isTokAt, hhg] at htok
            | some n =>
              cases n with
              | token c s value =>
                have hno : isObjAt H r = false := isObjAt_false_of_tok hhg
                cases value with
                | none =>
                  rw [tag_ref_tok_none f hht hhg] at h
                  cases h
                  refine ⟨fun ho => ?_, fun _ w hw hwo => ?_⟩
                  · rw [hno] at ho; exact Bool.noConfusion ho
                  · rw [succIds_tok_none hhg] at hw; cases hw
                | some w =>
                  rw [tag_ref_tok_some f hht hhg] at h
                  refine ⟨fun ho => ?_, fun _ w2 hw2 hw2o => ?_⟩
                  · rw [hno] at ho; exact Bool.noConfusion ho
                  · rw [succIds_tok_some hhg] at hw2
                    rcases token_value_wf hwf hhg with ⟨p, rfl⟩ | ⟨u, rfl, hu⟩
                    · rw [valIds] at hw2; cases hw2
                    · rw [valIds, List.mem_singleton] at hw2
                      subst hw2
                      have hrp := ihf st _ st' h rfl hobjs w2
                        (by rw [jobRefs_val_ref]; exact List.mem_singleton.mpr rfl)
                      exact hrp.1 hw2o
              | obj c fs =>
                rw [tag_ref_obj f hht hhg] at h
                have hg := tag_grows h
                refine ⟨fun _ => ?_, fun htok w hw hwo => ?_⟩
                · apply mem_ids_of_grows hg
                  simp [ids]
                · simp [isTokAt, hhg] at htok
      | fields cs =>
        cases cs with
        | nil => intro r hr; simp [jobRefs] at hr
        | cons c cs =>
          rw [tag_fields_cons] at h
          obtain ⟨st1, h1, h2⟩ := Option.bind_eq_some.mp h
          have hobjs1 : ∀ x, x ∈ ids st1 → isObjAt H x = true := by
            intro x hx
            rcases tag_objOnly h1 x hx with hx1 | hx2
            · exact hobjs x hx1
            · exact hx2
          intro r hr
          rw [jobRefs_fields_cons, List.mem_append] at hr
          rcases hr with hr | hr
          · have hrp := ihf st _ st1 h1 (jobOK_headJob hok)
              hobjs r (by rw [jobRefs_headJob hok]; exact hr)
            exact refProp_mono (tag_grows h2) hrp
          · exact ihf st1 _ st' h2 (jobOK_fields_tail hok) hobjs1 r hr
      | elems es =>
        cases es with
        | nil => intro r hr; simp [jobRefs] at hr
        | cons e es =>
          rw [tag_elems_cons] at h
          obtain ⟨st1, h1, h2⟩ := Option.bind_eq_some.mp h
          have hobjs1 : ∀ x, x ∈ ids st1 → isObjAt H x = true := by
            intro x hx
            rcases tag_objOnly h1 x hx with hx1 | hx2
            · exact hobjs x hx1
            · exact hx2
          intro r hr
          rw [jobRefs_elems_cons, List.mem_append] at hr
          rcases hr with hr | hr
          · have hne : notArr e = true := by
              rw [jobOK, List.all_cons, Bool.and_eq_true] at hok
              exact hok.1
            cases e with
            | prim p => rw [valIds] at hr; cases hr
            | ref u =>
              rw [valIds, List.mem_singleton] at hr
              subst hr
              have hrp := ihf st _ st1 h1 rfl hobjs r
                (by rw [jobRefs_val_ref]; exact List.mem_singleton.mpr rfl)
              exact refProp_mono (tag_grows h2) hrp
            | arr l => rw [notArr] at hne; cases hne
          · exact ihf st1 _ st' h2 (jobOK_elems_tail hok) hobjs1 r hr

theorem tag_new_closed {H : Heap} (hwf : wfHeap H = true) : ∀ f st j st',
    tag H f st j = some st' → jobOK j = true →
    (∀ x, x ∈ ids st → isObjAt H x = true) →
    ∀ z, z ∈ ids st' → z ∉ ids st → ∀ w, edgeO H z w → w ∈ ids st' := by
  intro f
  induction f using Nat.strong_induction_on with
  | _ f ih =>
    cases f with
    | zero => intro st j st' h; rw [tag_zero] at h; cases h
    | succ f =>
      have ihf := ih f (Nat.lt_succ_self f)
      intro st j st' h hok hobjs z hz hznot w hedge
      cases j with
      | val v =>
        cases v with
        | prim p => rw [tag_val_prim] at h; cases h; exact absurd hz hznot
        | arr l => rw [tag_val_arr] at h; cases h; exact absurd hz hznot
        | ref rid =>
          cases hht : hasTag st rid with
          | true =>
            rw [tag_ref_tagged H f hht] at h
            cases h
            exact absurd hz hznot
          | false =>
            cases hhg : hget H rid with
            | none =>
              rw [tag_ref_missing f hht hhg] at h
              cases h
              exact absurd hz hznot
            | some n =>
              cases n with
              | token c s value =>
                cases value with
                | none =>
                  rw [tag_ref_tok_none f hht hhg] at h
                  cases h
                  exact absurd hz hznot
                | some wv =>
                  rw [tag_ref_tok_some f hht hhg] at h
                  exact ihf st _ st' h rfl hobjs z hz hznot w hedge
              | obj c fs =>
                rw [tag_ref_obj f hht hhg] at h
                have hobjs1 : ∀ x, x ∈ ids (st ++ [(rid, st.length + 1)]) →
                    isObjAt H x = true := by
                  intro x hx
                  rw [ids, List.map_append] at hx
                  rcases List.mem_append.mp hx with hx1 | hx2
                  · exact hobjs x hx1
                  · have hxr : x = rid := by simpa using hx2
                    rw [hxr]
                    exact isObjAt_of_hget_obj hhg
                by_cases hzid : z = rid
                · subst hzid
                  have hall := tag_refs_done hwf f _ _ st' h
                    (jobOK_fields_of_wf hwf hhg) hobjs1
                  obtain ⟨hwobj, hwsucc⟩ := hedge
                  rcases hwsucc with hdir | ⟨u, hu1, hu2, hu3⟩
                  · rw [succIds_obj hhg] at hdir
                    exact (hall w hdir).1 hwobj
                  · rw [succIds_obj hhg] at hu1
                    exact (hall u hu1).2 hu2 w hu3 hwobj
                · have hznot1 : z ∉ ids (st ++ [(rid, st.length + 1)]) := by
                    rw [ids, List.map_append]
                    intro hmem
                    rcases List.mem_append.mp hmem with h1 | h2
                    · exact hznot h1
                    · exact hzid (by simpa using h2)
                  exact ihf _ _ _ h (jobOK_fields_of_wf hwf hhg) hobjs1 z hz hznot1 w hedge
      | fields cs =>
        cases cs with
        | nil => rw [tag_fields_nil] at h; cases h; exact absurd hz hznot
        | cons c cs =>
          rw [tag_fields_cons] at h
          obtain ⟨st1, h1, h2⟩ := Option.bind_eq_some.mp h
          have hobjs1 : ∀ x, x ∈ ids st1 → isObjAt H x = true := by
            intro x hx
            rcases tag_objOnly h1 x hx with hx1 | hx2
            · exact hobjs x hx1
            · exact hx2
          by_cases hz1 : z ∈ ids st1
          · have hstep := ihf st _ st1 h1 (jobOK_headJob hok) hobjs z hz1 hznot w hedge
            exact mem_ids_of_grows (tag_grows h2) hstep
          · exact ihf st1 _ st' h2 (jobOK_fields_tail hok) hobjs1 z hz hz1 w hedge
      | elems es =>
        cases es with
        | nil => rw [tag_elems_nil] at h; cases h; exact absurd hz hznot
        | cons e es =>
          rw [tag_elems_cons] at h
          obtain ⟨st1, h1, h2⟩ := Option.bind_eq_some.mp h
          have hobjs1 : ∀ x, x ∈ ids st1 → isObjAt H x = true := by
            intro x hx
            rcases tag_objOnly h1 x hx with hx1 | hx2
            · exact hobjs x hx1
            · exact hx2
          by_cases hz1 : z ∈ ids st1
          · have hstep := ihf st _ st1 h1 rfl hobjs z hz1 hznot w hedge
            exact mem_ids_of_grows (tag_grows h2) hstep
          · exact ihf st1 _ st' h2 (jobOK_elems_tail hok) hobjs1 z hz hz1 w hedge

theorem edgeO_direct {H : Heap} {z w : Nat} (hobj : isObjAt H w = true)
    (hmem : w ∈ succIds H z) : edgeO H z w := by
  unfold edgeO
  exact ⟨hobj, Or.inl hmem⟩

theorem edgeO_tok {H : Heap} {z u w : Nat} (hobj : isObjAt H w = true)
    (hu : u ∈ succIds H z) (hut : isTokAt H u = true) (hw : w ∈ succIds H u) :
    edgeO H z w := by
  unfold edgeO
  exact ⟨hobj, Or.inr ⟨u, hu, hut, hw⟩⟩

theorem tag_reach_complete {H : Heap} (hwf : wfHeap H = true) {root f : Nat}
    {st' : St} (hroot : isObjAt H root = true)
    (h : tag H f [] (.val (.ref root)) = some st') :
    ∀ w, ReachO H root w → w ∈ ids st' := by
  have hobjs0 : ∀ x, x ∈ ids ([] : St) → isObjAt H x = true := by
    intro x hx
    simp [ids] at hx
  have hrootmem : root ∈ ids st' := by
    have hall := tag_refs_done hwf f [] _ st' h rfl hobjs0 root
      (by rw [jobRefs_val_ref]; exact List.mem_singleton.mpr rfl)
    exact hall.1 hroot
  intro w hw
  unfold ReachO at hw
  induction hw with
  | refl => exact hrootmem
  | tail hab hbc ihb =>
    exact tag_new_closed hwf f [] _ st' h rfl hobjs0 _ ihb (by simp [ids]) _ hbc

theorem tag_reach_sound {H : Heap} (hwf : wfHeap H = true) (root : Nat) : ∀ f st j st',
    tag H f st j = some st' → jobOK j = true →
    (∀ r, r ∈ jobRefs j → reachProp H root r) →
    (∀ x, x ∈ ids st → ReachO H root x) →
    ∀ x, x ∈ ids st' → ReachO H root x := by
  intro f
  induction f using Nat.strong_induction_on with
  | _ f ih =>
    cases f with
    | zero => intro st j st' h; rw [tag_zero] at h; cases h
    | succ f =>
      have ihf := ih f (Nat.lt_succ_self f)
      intro st j st' h hok hrefs hst x hx
      cases j with
      | val v =>
        cases v with
        | prim p => rw [tag_val_prim] at h; cases h; exact hst x hx
        | arr l => rw [tag_val_arr] at h; cases h; exact hst x hx
        | ref rid =>
          have hrp : reachProp H root rid := hrefs rid
            (by rw [jobRefs_val_ref]; exact List.mem_singleton.mpr rfl)
          cases hht : hasTag st rid with
          | true => rw [tag_ref_tagged H f hht] at h; cases h; exact hst x hx
          | false =>
            cases hhg : hget H rid with
            | none => rw [tag_ref_missing f hht hhg] at h; cases h; exact hst x hx
            | some n =>
              cases n with
              | token c s value =>
                cases value with
                | none =>
                  rw [tag_ref_tok_none f hht hhg] at h
                  cases h
                  exact hst x hx
                | some wv =>
                  rw [tag_ref_tok_some f hht hhg] at h
                  refine ihf st _ st' h rfl ?_ hst x hx
                  intro r hr
                  rcases token_value_wf hwf hhg with ⟨p, rfl⟩ | ⟨u, rfl, hu⟩
                  · rw [jobRefs_val_prim] at hr; cases hr
                  · rw [jobRefs_val_ref, List.mem_singleton] at hr
                    subst hr
                    constructor
                    · intro _
                      refine hrp.2 (isTokAt_of_hget_tok hhg) r ?_ hu
                      rw [succIds_tok_some hhg, valIds]
                      exact List.mem_singleton.mpr rfl
                    · intro htok
                      rw [not_tok_of_obj hu] at htok
                      exact Bool.noConfusion htok
              | obj c fs =>
                rw [tag_ref_obj f hht hhg] at h
                have hro : ReachO H root rid := hrp.1 (isObjAt_of_hget_obj hhg)
                have hst1 : ∀ y, y ∈ ids (st ++ [(rid, st.length + 1)]) →
                    ReachO H root y := by
                  intro y hy
                  rw [ids, List.map_append] at hy
                  rcases List.mem_append.mp hy with hy1 | hy2
                  · exact hst y hy1
                  · have hyr : y = rid := by simpa using hy2
                    rw [hyr]
                    exact hro
                refine ihf _ _ st' h (jobOK_fields_of_wf hwf hhg) ?_ hst1 x hx
                intro r hr
                rw [← succIds_obj hhg] at hr
                constructor
                · intro hrobj
                  exact Relation.ReflTransGen.tail hro (edgeO_direct hrobj hr)
                · intro hrtok w2 hw2 hw2o
                  exact Relation.ReflTransGen.tail hro (edgeO_tok hw2o hr hrtok hw2)
      | fields cs =>
        cases cs with
        | nil => rw [tag_fields_nil] at h; cases h; exact hst x hx
        | cons c cs =>
          rw [tag_fields_cons] at h
          obtain ⟨st1, h1, h2⟩ := Option.bind_eq_some.mp h
          have hst1 := ihf st _ st1 h1 (jobOK_headJob hok)
            (fun r hr => hrefs r (by
              rw [jobRefs_fields_cons, List.mem_append]
              exact Or.inl (by rwa [jobRefs_headJob hok] at hr))) hst
          exact ihf st1 _ st' h2 (jobOK_fields_tail hok)
            (fun r hr => hrefs r (by
              rw [jobRefs_fields_cons, List.mem_append]
              exact Or.inr hr)) hst1 x hx
      | elems es =>
        cases es with
        | nil => rw [tag_elems_nil] at h; cases h; exact hst x hx
        | cons e es =>
          rw [tag_elems_cons] at h
          obtain ⟨st1, h1, h2⟩ := Option.bind_eq_some.mp h
          have hne : notArr e = true := by
            rw [jobOK, List.all_cons, Bool.and_eq_true] at hok
            exact hok.1
          have hrefs1 : ∀ r, r ∈ jobRefs (.val e) → reachProp H root r := by
            intro r hr
            apply hrefs r
            rw [jobRefs_elems_cons, List.mem_append]
            left
            cases e with
            | prim p => rw [jobRefs_val_prim] at hr; cases hr
            | ref u => rw [jobRefs_val_ref] at hr; rw [valIds]; exact hr
            | arr l => rw [notArr] at hne; cases hne
          have hst1 := ihf st _ st1 h1 rfl hrefs1 hst
          exact ihf st1 _ st' h2 (jobOK_elems_tail hok)
            (fun r hr => hrefs r (by
              rw [jobRefs_elems_cons, List.mem_append]
              exact Or.inr hr)) hst1 x hx

theorem hget_append : ∀ {H : Heap} (E : Heap) {id : Nat} {n : HNode},
    hget H id = some n → hget (H ++ E) id = some n := by
  intro H
  induction H with
  | nil => intro E id n h; rw [hget] at h; cases h
  | cons p t ih =>
    intro E id n h
    rw [hget] at h
    rw [List.cons_append, hget]
    split at h
    · next heq => rw [if_pos heq]; exact h
    · next heq => rw [if_neg heq]; exact ih E h

theorem keyMem_hget_append {H : Heap} (E : Heap) {id : Nat}
    (h : keyMem H id = true) : hget (H ++ E) id = hget H id := by
  obtain ⟨n, hn⟩ := keyMem_iff.mp h
  rw [hn, hget_append E hn]

theorem valIds_keyMem {H : Heap} {v : Val} (hv : valWF H v = true) :
    ∀ r, r ∈ valIds v → keyMem H r = true := by
  intro r hr
  cases v with
  | prim p => rw [valIds] at hr; cases hr
  | ref u =>
    rw [valIds, List.mem_singleton] at hr
    subst hr
    exact hv
  | arr l =>
    rw [valIds, List.mem_filterMap] at hr
    obtain ⟨e, he, hsome⟩ := hr
    rw [valWF, List.all_eq_true] at hv
    have hew := hv e he
    cases e with
    | prim p => cases hsome
    | ref u =>
      cases hsome
      exact hew
    | arr l2 => cases hsome

theorem obj_refs_keyMem {H : Heap} (hwf : wfHeap H = true) {rid : Nat} {c : String}
    {fs : List (String × Val)} (hg : hget H rid = some (.obj c fs)) :
    ∀ r, r ∈ jobRefs (.fields (fs.map Prod.snd)) → keyMem H r = true := by
  intro r hr
  rw [jobRefs, List.mem_flatten] at hr
  obtain ⟨li, hli, hrli⟩ := hr
  obtain ⟨v, hv, rfl⟩ := List.mem_map.mp hli
  obtain ⟨kv, hkv, rfl⟩ := List.mem_map.mp hv
  exact valIds_keyMem (obj_fields_wf hwf hg kv hkv) r hrli

theorem tag_ext {H : Heap} (E : Heap) (hwf : wfHeap H = true) : ∀ f st j,
    jobOK j = true → (∀ r, r ∈ jobRefs j → keyMem H r = true) →
    tag (H ++ E) f st j = tag H f st j := by
  intro f
  induction f using Nat.strong_induction_on with
  | _ f ih =>
    cases f with
    | zero => intro st j _ _; rw [tag_zero, tag_zero]
    | succ f =>
      have ihf := ih f (Nat.lt_succ_self f)
      intro st j hok hrefs
      cases j with
      | val v =>
        cases v with
        | prim p => rw [tag_val_prim, tag_val_prim]
        | arr l => rw [tag_val_arr, tag_val_arr]
        | ref rid =>
          have hk : keyMem H rid = true := hrefs rid
            (by rw [jobRefs_val_ref]; exact List.mem_singleton.mpr rfl)
          obtain ⟨n, hg⟩ := keyMem_iff.mp hk
          have hg2 : hget (H ++ E) rid = some n := hget_append E hg
          cases hht : hasTag st rid with
          | true => rw [tag_ref_tagged (H ++ E) f hht, tag_ref_tagged H f hht]
          | false =>
            cases n with
            | token c s value =>
              cases value with
              | none => rw [tag_ref_tok_none f hht hg2, tag_ref_tok_none f hht hg]
              | some wv =>
                rw [tag_ref_tok_some f hht hg2, tag_ref_tok_some f hht hg]
                apply ihf st (.val wv) rfl
                intro r hr
                rcases token_value_wf hwf hg with ⟨p, rfl⟩ | ⟨u, rfl, hu⟩
                · rw [jobRefs_val_prim] at hr; cases hr
                · rw [jobRefs_val_ref, List.mem_singleton] at hr
                  subst hr
                  exact keyMem_of_obj hu
            | obj c fs =>
              rw [tag_ref_obj f hht hg2, tag_ref_obj f hht hg]
              exact ihf _ _ (jobOK_fields_of_wf hwf hg) (obj_refs_keyMem hwf hg)
      | fields cs =>
        cases cs with
        | nil => rw [tag_fields_nil, tag_fields_nil]
        | cons c cs =>
          rw [tag_fields_cons, tag_fields_cons]
          have hhead : tag (H ++ E) f st (headJob c) = tag H f st (headJob c) := by
            apply ihf st (headJob c) (jobOK_headJob hok)
            intro r hr
            apply hrefs r
            rw [jobRefs_fields_cons, List.mem_append]
            exact Or.inl (by rwa [jobRefs_headJob hok] at hr)
          rw [hhead]
          cases htl : tag H f st (headJob c) with
          | none => rfl
          | some st1 =>
            simp only [Option.some_bind]
            apply ihf st1 (.fields cs) (jobOK_fields_tail hok)
            intro r hr
            apply hrefs r
            rw [jobRefs_fields_cons, List.mem_append]
            exact Or.inr hr
      | elems es =>
        cases es with
        | nil => rw [tag_elems_nil, tag_elems_nil]
        | cons e es =>
          rw [tag_elems_cons, tag_elems_cons]
          have hne : notArr e = true := by
            rw [jobOK, List.all_cons, Bool.and_eq_true] at hok
            exact hok.1
          have hhead : tag (H ++ E) f st (.val e) = tag H f st (.val e) := by
            apply ihf st (.val e) rfl
            intro r hr
            apply hrefs r
            rw [jobRefs_elems_cons, List.mem_append]
            left
            cases e with
            | prim p => rw [jobRefs_val_prim] at hr; cases hr
            | ref u => rw [jobRefs_val_ref] at hr; rw [valIds]; exact hr
            | arr l => rw [notArr] at hne; cases hne
          rw [hhead]
          cases htl : tag H f st (.val e) with
          | none => rfl
          | some st1 =>
            simp only [Option.some_bind]
            apply ihf st1 (.elems es) (jobOK_elems_tail hok)
            intro r hr
            apply hrefs r
            rw [jobRefs_elems_cons, List.mem_append]
            exact Or.inr hr

theorem view_prim (H : Heap) (st : St) (p : Prim) :
    view H st (.prim p) = viewScalar H st (.prim p) := rfl

theorem view_ref (H : Heap) (st : St) (rid : Nat) :
    view H st (.ref rid) = viewScalar H st (.ref rid) := rfl

theorem view_arr (H : Heap) (st : St) (l : List Val) :
    view H st (.arr l) =
      "[" ++ String.intercalate "," (l.map (viewScalar H st)) ++ "]" := rfl

theorem viewScalar_ref_tagged {st : St} {rid t : Nat} (H : Heap)
    (h : tagLookup st rid = some t) :
    viewScalar H st (.ref rid) = "#" ++ toString t := by
  simp [viewScalar, h]

theorem viewScalar_ref_tok {H : Heap} {st : St} {rid : Nat} {cat src : String}
    {v : Option Val} (h1 : tagLookup st rid = none)
    (h2 : hget H rid = some (.token cat src v)) :
    viewScalar H st (.ref rid) = "(" ++ cat ++ ",\"" ++ src ++ "\")" := by
  simp [viewScalar, h1, h2]

theorem viewScalar_ext {H : Heap} (E : Heap) (st : St) {v : Val}
    (hv : elemWF H v = true) : viewScalar (H ++ E) st v = viewScalar H st v := by
  cases v with
  | prim p => rfl
  | ref rid =>
    rw [elemWF] at hv
    cases hts : tagLookup st rid with
    | some t => rw [viewScalar_ref_tagged (H ++ E) hts, viewScalar_ref_tagged H hts]
    | none =>
      have hagree := keyMem_hget_append E hv
      simp [viewScalar, hts, hagree]
  | arr l => rw [elemWF] at hv; cases hv

theorem view_ext {H : Heap} (E : Heap) (st : St) {v : Val} (hv : valWF H v = true) :
    view (H ++ E) st v = view H st v := by
  cases v with
  | prim p =>
    rw [view_prim, view_prim]
    exact viewScalar_ext E st rfl
  | ref rid =>
    rw [view_ref, view_ref]
    apply viewScalar_ext E st
    rw [elemWF]
    rw [valWF] at hv
    exact hv
  | arr l =>
    rw [view_arr, view_arr]
    have hmap : l.map (viewScalar (H ++ E) st) = l.map (viewScalar H st) := by
      apply List.map_congr_left
      intro e he
      rw [valWF, List.all_eq_true] at hv
      exact viewScalar_ext E st (hv e he)
    rw [hmap]

theorem lineFor_ext {H : Heap} (E : Heap) (hwf : wfHeap H = true) (st : St)
    {p : Nat × Nat} (hobj : isObjAt H p.1 = true) :
    lineFor (H ++ E) st p = lineFor H st p := by
  obtain ⟨c, fs, hg⟩ := isObjAt_iff.mp hobj
  have hg2 := hget_append E hg
  simp only [lineFor, hg, hg2]
  have hmap : fs.map (fun kv => kv.1 ++ "=" ++ view (H ++ E) st kv.2) =
      fs.map (fun kv => kv.1 ++ "=" ++ view H st kv.2) := by
    apply List.map_congr_left
    intro kv hkv
    rw [view_ext E st (obj_fields_wf hwf hg kv hkv)]
  rw [hmap]

theorem renderAll_ext {H : Heap} (E : Heap) (hwf : wfHeap H = true) {st : St}
    (hc : Consec st) (hobjs : ∀ p, p ∈ st → isObjAt H p.1 = true) :
    renderAll (H ++ E) st = renderAll H st := by
  rw [renderAll, renderAll, sortByTag_eq_self hc]
  congr 1
  apply List.map_congr_left
  intro p hp
  exact lineFor_ext E hwf st (hobjs p hp)

theorem untagged_le_length (H : Heap) (st : St) : untagged H st ≤ H.length := by
  unfold untagged
  calc ((objKeys H).filter (fun id => !hasTag st id)).length
      ≤ (objKeys H).length := List.length_filter_le _ _
    _ ≤ H.length := by
        unfold objKeys
        rw [List.length_map]
        exact Nat.le_trans (List.length_filter_le _ _) (Nat.le_refl _)

theorem jobNeed_init_le (H : Heap) (root : Nat) :
    jobNeed H [] (.val (.ref root)) ≤ fuelBound H := by
  simp only [jobNeed, fuelBound]
  have := Nat.mul_le_mul_left (stepBound H) (untagged_le_length H ([] : St))
  omega

theorem tag_run_exists {H : Heap} (hwf : wfHeap H = true) (root : Nat) :
    ∃ st, tag H (fuelBound H) [] (.val (.ref root)) = some st :=
  tag_sufficient hwf (fuelBound H) [] (.val (.ref root)) (jobNeed_init_le H root)

theorem serialize_ext {H : Heap} (E : Heap) (hwf : wfHeap H = true) {root : Nat}
    (hroot : keyMem H root = true) :
    serialize (H ++ E) root = serialize H root := by
  obtain ⟨st, hst⟩ := tag_run_exists hwf root
  have hst2 : tag H (fuelBound (H ++ E)) [] (.val (.ref root)) = some st :=
    tag_fuel_mono (fuelBound H) (fuelBound (H ++ E)) [] _ st
      (fuelBound_le_append H E) hst
  have hext : tag (H ++ E) (fuelBound (H ++ E)) [] (.val (.ref root)) = some st := by
    rw [tag_ext E hwf (fuelBound (H ++ E)) [] (.val (.ref root)) rfl
      (fun r hr => by
        rw [jobRefs_val_ref, List.mem_singleton] at hr
        rw [hr]
        exact hroot)]
    exact hst2
  rw [serialize, serialize, hst, hext]
  show some (renderAll (H ++ E) st) = some (renderAll H st)
  congr 1
  apply renderAll_ext E hwf (tag_consec hst consec_nil)
  intro p hp
  have hpid : p.1 ∈ ids st := List.mem_map.mpr ⟨p, hp, rfl⟩
  rcases tag_objOnly hst p.1 hpid with h1 | h2
  · simp [ids] at h1
  · exact h2

/-- C1: for every finite well-formed node graph, including graphs with
true reference cycles, the tagging traversal terminates within the
explicit fuel bound and serialization succeeds; every node is tagged at
most once (so no node is ever re-expanded), and any occurrence of an
already-tagged node `A` renders as the back-reference `#` followed by
the tag of `A`. -/
theorem C1_cycle_termination_and_backref (H : Heap) (root : Nat)
    (hwf : wfHeap H = true) :
    ∃ st, tag H (fuelBound H) [] (.val (.ref root)) = some st ∧
      serialize H root = some (renderAll H st) ∧
      (ids st).Nodup ∧
      sortByTag st = st ∧
      (∀ A t, tagLookup st A = some t →
        view H st (.ref A) = "#" ++ toString t) := by
  obtain ⟨st, hst⟩ := tag_run_exists hwf root
  refine ⟨st, hst, ?_, ?_, ?_, ?_⟩
  · simp only [serialize, hst]
  · exact tag_nodup hst (by simp [ids])
  · exact sortByTag_eq_self (tag_consec hst consec_nil)
  · intro A t ht
    rw [view_ref, viewScalar_ref_tagged H ht]

/-- C1 witness: the hypotheses are satisfied by the concrete two-node
reference cycle `cycHeap`, on which the theorem yields termination and
back-reference rendering. -/
theorem C1_witness :
    wfHeap cycHeap = true ∧
    (∃ st, tag cycHeap (fuelBound cycHeap) [] (.val (.ref 0)) = some st ∧
      serialize cycHeap 0 = some (renderAll cycHeap st) ∧
      (ids st).Nodup ∧
      sortByTag st = st ∧
      (∀ A t, tagLookup st A = some t →
        view cycHeap st (.ref A) = "#" ++ toString t)) :=
  ⟨by decide, C1_cycle_termination_and_backref cycHeap 0 (by decide)⟩

/-- C2: if the same node instance `X` is held by two distinct field
positions of reachable nodes of a well-formed graph, then `X` receives
exactly one tag (it occurs exactly once in the tag table and hence is
emitted as exactly one output line), and every field position holding
`X` renders as the back-reference to that single tag. -/
theorem C2_sharing_deduplicated (H : Heap) (root z1 z2 X : Nat) (st : St)
    (k1 k2 : String) (v1 v2 : Val) (c1 c2 : String)
    (fs1 fs2 : List (String × Val))
    (hwf : wfHeap H = true)
    (hroot : isObjAt H root = true)
    (hrun : tag H (fuelBound H) [] (.val (.ref root)) = some st)
    (hz1 : ReachO H root z1) (hz2 : ReachO H root z2)
    (hn1 : hget H z1 = some (.obj c1 fs1))
    (hn2 : hget H z2 = some (.obj c2 fs2))
    (hf1 : (k1, v1) ∈ fs1) (hf2 : (k2, v2) ∈ fs2)
    (hdist : ¬ (z1 = z2 ∧ k1 = k2))
    (hX1 : X ∈ valIds v1) (hX2 : X ∈ valIds v2)
    (hXobj : isObjAt H X = true) :
    ∃ t, tagLookup st X = some t ∧
      view H st (.ref X) = "#" ++ toString t ∧
      (ids st).count X = 1 ∧
      ((sortByTag st).map Prod.fst).count X = 1 := by
  have hsucc : X ∈ succIds H z1 := by
    rw [succIds_obj hn1, jobRefs, List.mem_flatten]
    exact ⟨valIds v1,
      List.mem_map.mpr ⟨v1, List.mem_map.mpr ⟨(k1, v1), hf1, rfl⟩, rfl⟩, hX1⟩
  have hreach : ReachO H root X :=
    Relation.ReflTransGen.tail hz1 (edgeO_direct hXobj hsucc)
  have hmem : X ∈ ids st := tag_reach_complete hwf hroot hrun X hreach
  obtain ⟨t, ht⟩ := tagLookup_isSome_of_mem hmem
  have hnd : (ids st).Nodup := tag_nodup hrun (by simp [ids])
  have hcount : (ids st).count X = 1 := List.count_eq_one_of_mem hnd hmem
  refine ⟨t, ht, ?_, hcount, ?_⟩
  · rw [view_ref, viewScalar_ref_tagged H ht]
  · rw [sortByTag_eq_self (tag_consec hrun consec_nil)]
    exact hcount

/-- C2 witness: on `shareHeap` the fields `type` and `variable` of the
root both hold node 1; the theorem yields a single tag, a single output
line and back-reference rendering for node 1. -/
theorem C2_witness :
    wfHeap shareHeap = true ∧
    isObjAt shareHeap 0 = true ∧
    tag shareHeap (fuelBound shareHeap) [] (.val (.ref 0)) =
      some [(0, 1), (1, 2)] ∧
    (∃ t, tagLookup [(0, 1), (1, 2)] 1 = some t ∧
      view shareHeap [(0, 1), (1, 2)] (.ref 1) = "#" ++ toString t ∧
      (ids [(0, 1), (1, 2)]).count 1 = 1 ∧
      ((sortByTag [(0, 1), (1, 2)]).map Prod.fst).count 1 = 1) :=
  ⟨by decide, by decide, by decide,
    C2_sharing_deduplicated shareHeap 0 0 0 1 [(0, 1), (1, 2)]
      "type" "variable" (.ref 1) (.ref 1) "VariableDeclaration" "VariableDeclaration"
      [("type", .ref 1), ("variable", .ref 1), ("initializer", .prim .null)]
      [("type", .ref 1), ("variable", .ref 1), ("initializer", .prim .null)]
      (by decide) (by decide) (by decide)
      Relation.ReflTransGen.refl Relation.ReflTransGen.refl
      rfl rfl
      (List.mem_cons_self _ _)
      (List.mem_cons_of_mem _ (List.mem_cons_self _ _))
      (by decide)
      (by simp [valIds]) (by simp [valIds])
      (by decide)⟩

/-- C3: on a well-formed graph with a composite root, the traversal
assigns the tag values 1, 2, ..., N in discovery order (the stored tag
list is exactly the consecutive integers starting at 1), each node gets
at most one tag, and the set of tagged identities is exactly the set of
composite nodes reachable from the root along field references,
traversing fields in declared order and sequences element by element. -/
theorem C3_discovery_order_numbering (H : Heap) (root : Nat) (st : St)
    (hwf : wfHeap H = true)
    (hroot : isObjAt H root = true)
    (hrun : tag H (fuelBound H) [] (.val (.ref root)) = some st) :
    st.map Prod.snd = upFrom 1 st.length ∧
    (ids st).Nodup ∧
    (∀ w, w ∈ ids st ↔ ReachO H root w) := by
  refine ⟨tag_consec hrun consec_nil, tag_nodup hrun (by simp [ids]), ?_⟩
  intro w
  constructor
  · intro hw
    refine tag_reach_sound hwf root _ _ _ _ hrun rfl ?_ ?_ w hw
    · intro r hr
      rw [jobRefs_val_ref, List.mem_singleton] at hr
      subst hr
      constructor
      · intro _
        exact Relation.ReflTransGen.refl
      · intro htok
        rw [not_tok_of_obj hroot] at htok
        exact Bool.noConfusion htok
    · intro x hx
      simp [ids] at hx
  · exact tag_reach_complete hwf hroot hrun w

/-- C3 witness: on `chainHeap` (a program with one statement) the theorem
yields consecutive tags 1, 2 in discovery order and the tagged set equal
to the reachable set. -/
theorem C3_witness :
    wfHeap chainHeap = true ∧
    isObjAt chainHeap 0 = true ∧
    tag chainHeap (fuelBound chainHeap) [] (.val (.ref 0)) =
      some [(0, 1), (1, 2)] ∧
    (([(0, 1), (1, 2)] : St).map Prod.snd =
        upFrom 1 ([(0, 1), (1, 2)] : St).length ∧
      (ids [(0, 1), (1, 2)]).Nodup ∧
      (∀ w, w ∈ ids [(0, 1), (1, 2)] ↔ ReachO chainHeap 0 w)) :=
  ⟨by decide, by decide, by decide,
    C3_discovery_order_numbering chainHeap 0 [(0, 1), (1, 2)]
      (by decide) (by decide) (by decide)⟩

/-- C4: the serializer is deterministic; two invocations on the same
unchanged graph yield the identical string, and the output depends only
on the part of the heap reachable from the root: appending arbitrary
extra bindings to the heap leaves the output unchanged. -/
theorem C4_deterministic_output (H E : Heap) (root : Nat)
    (hwf : wfHeap H = true) (hroot : keyMem H root = true) :
    serialize H root = serialize H root ∧
    serialize (H ++ E) root = serialize H root :=
  ⟨rfl, serialize_ext E hwf hroot⟩

/-- C4 witness: on the concrete graph `extHeap` with the unrelated
bindings `extraHeap` appended, the output is unchanged. -/
theorem C4_witness :
    wfHeap extHeap = true ∧
    keyMem extHeap 0 = true ∧
    (serialize extHeap 0 = serialize extHeap 0 ∧
      serialize (extHeap ++ extraHeap) 0 = serialize extHeap 0) :=
  ⟨by decide, by decide, C4_deterministic_output extHeap extraHeap 0 (by decide) (by decide)⟩

/-- C5: a leaf token with no attached resolved value is never tagged, so
it never receives an output line of its own, and any field position
referring to it renders as `(category,"raw text")`. -/
theorem C5_token_transparency (H : Heap) (root tok : Nat) (st : St)
    (cat src : String)
    (hwf : wfHeap H = true)
    (hrun : tag H (fuelBound H) [] (.val (.ref root)) = some st)
    (htok : hget H tok = some (.token cat src none)) :
    tok ∉ ids st ∧
    tagLookup st tok = none ∧
    view H st (.ref tok) = "(" ++ cat ++ ",\"" ++ src ++ "\")" ∧
    (ids st).count tok = 0 := by
  have hnotobj : isObjAt H tok = false := isObjAt_false_of_tok htok
  have hnot : tok ∉ ids st := by
    intro hmem
    rcases tag_objOnly hrun tok hmem with h1 | h2
    · simp [ids] at h1
    · rw [hnotobj] at h2
      exact Bool.noConfusion h2
  have htl : tagLookup st tok = none := tagLookup_eq_none_iff.mpr hnot
  refine ⟨hnot, htl, ?_, List.count_eq_zero.mpr hnot⟩
  rw [view_ref, viewScalar_ref_tok htl htok]

/-- C5 witness: on `tokHeap` the number token at id 1 is never tagged and
renders as `(number,"5")` at its referring position. -/
theorem C5_witness :
    wfHeap tokHeap = true ∧
    tag tokHeap (fuelBound tokHeap) [] (.val (.ref 0)) = some [(0, 1)] ∧
    hget tokHeap 1 = some (.token "number" "5" none) ∧
    ((1 : Nat) ∉ ids [(0, 1)] ∧
      tagLookup [(0, 1)] 1 = none ∧
      view tokHeap [(0, 1)] (.ref 1) = "(" ++ "number" ++ ",\"" ++ "5" ++ "\")" ∧
      (ids [(0, 1)]).count 1 = 0) :=
  ⟨by decide, by decide, rfl,
    C5_token_transparency tokHeap 0 1 [(0, 1)] "number" "5"
      (by decide) (by decide) rfl⟩

/-- C6: the display name of `FunctionType(paramTypes, returnType)` is the
open parenthesis, the parameter type names joined by commas, the closing
parenthesis and arrow, and the return type name; the display name of
`ArrayType(t)` is `t`'s name in square brackets.  In particular
`FunctionType([INT, STRING], BOOLEAN)` is named `(pog,manyCars)->boolin`
and `ArrayType(INT)` is named `[pog]`. -/
theorem C6_type_name_derivation :
    (∀ ps r, (FunctionTypeMk ps r).typename =
      "(" ++ String.intercalate "," (ps.map Typ.typename) ++ ")->" ++
        r.typename) ∧
    (∀ t, ArrayTypeMk (.isType t) = .ok ⟨"[" ++ t.typename ++ "]"⟩) ∧
    (FunctionTypeMk [Typ.INT, Typ.STRING] Typ.BOOLEAN).typename =
      "(pog,manyCars)->boolin" ∧
    ArrayTypeMk (.isType Typ.INT) = .ok ⟨"[pog]"⟩ :=
  ⟨fun ps r => rfl, fun t => rfl, by decide, rfl⟩

/-- C7: constructing `ArrayType` with any argument that is not a `Type`
instance raises a failure at construction time (the guard skips the
`super` call, so returning from the derived constructor throws a
`ReferenceError`); it never returns a type object. -/
theorem C7_arraytype_rejects_non_type (v : Val) :
    ArrayTypeMk (.notType v) = .error superRefError ∧
    (∀ t, ArrayTypeMk (.notType v) ≠ .ok t) :=
  ⟨rfl, fun t h => Except.noConfusion h⟩

/-- C8 counterexample: on the end-to-end example heap the tagging phase
produces 4 tagged entries (Program, VariableDeclaration, the Type record
and the Variable record), not 2 as the claim states. -/
theorem C8_counterexample :
    (tag vdHeap (fuelBound vdHeap) [] (.val (.ref 1))).map List.length =
      some 4 ∧
    ¬ (tag vdHeap (fuelBound vdHeap) [] (.val (.ref 1))).map List.length =
      some 2 :=
  ⟨by decide, by decide⟩

/-- C8 amended: serializing the example produces exactly 4 tagged lines,
with the Program as tag 1, the VariableDeclaration as tag 2, the Type
record as tag 3 and the Variable record as tag 4, and the initializer
field renders as `(number,"5")`. -/
theorem C8_amended_end_to_end :
    tag vdHeap (fuelBound vdHeap) [] (.val (.ref 1)) =
      some [(1, 1), (2, 2), (3, 3), (4, 4)] ∧
    serialize vdHeap 1 = some
      ("   1 | Program statements=[#2]\n" ++
       "   2 | VariableDeclaration type=#3 variable=#4 initializer=(number,\"5\")\n" ++
       "   3 | Type typename=\x27pog\x27\n" ++
       "   4 | Variable name=\x27x\x27") :=
  ⟨by decide, by decide⟩

/-- C9: the serializer is read-only with respect to the graph: all its
bookkeeping lives in the side table `tags`, the source never assigns to
any node property, so after a call every node binding of the heap is
exactly what it was before. -/
theorem C9_serializer_read_only (H : Heap) (root : Nat) :
    (serializeRun H root).2 = H ∧
    (∀ x, hget (serializeRun H root).2 x = hget H x) :=
  ⟨rfl, fun _ => rfl⟩

/-- C10: `error(message, token)` always raises a failure carrying exactly
the message text, for every message and every optional token argument; it
never returns normally. -/
theorem C10_error_always_raises (message : String) (tok : Option HNode) :
    error message tok = .error ⟨message⟩ ∧
    (∀ u, error message tok ≠ .ok u) ∧
    (match error message tok with
     | .error e => e.message = message
     | .ok _ => False) :=
  ⟨rfl, fun u h => Except.noConfusion h, rfl⟩
